import Mathlib

/-!
Formal model of the size-targeting compression logic of AGPicCompress
(src/ImageCompressor.py).  File sizes are modelled in bytes as natural
numbers.  The Python code compares sizes in kilobytes after a
floating-point division by 1024; every such comparison against an
integer bound `k` is equivalent to comparing the byte count against
`k * 1024`, which is how the comparisons are rendered here (exactly,
with no rounding involved).
-/

/-- Embeds `ImageCompressor._adjust_file_size` (ImageCompressor.py lines
343-371).  The file content is modelled as a list of byte values.  The
Python code returns without writing when the current size already
reaches the target; otherwise it appends the sentinel bytes 0xff 0xfe
followed by `bytes_to_add - 2` zero bytes.  Python clamps a negative
repetition count to an empty string, and truncated natural subtraction
does the same here. -/
def adjust_file_size (content : List ℕ) (targetKB : ℕ) : List ℕ :=
  if targetKB * 1024 ≤ content.length then content
  else content ++ 255 :: 254 :: List.replicate (targetKB * 1024 - content.length - 2) 0

/-- Length of the file produced by `adjust_file_size`, as a function of
the input length only.  Used by the search-loop models, which track
sizes rather than file contents. -/
def adjustedSizeLen (len targetKB : ℕ) : ℕ :=
  if targetKB * 1024 ≤ len then len
  else len + (2 + (targetKB * 1024 - len - 2))

lemma adjust_file_size_length (content : List ℕ) (t : ℕ) :
    (adjust_file_size content t).length = adjustedSizeLen content.length t := by
  unfold adjust_file_size adjustedSizeLen
  split
  · rfl
  · simp [List.length_append, List.length_replicate]
    omega

lemma adjustedSizeLen_bounds (len t : ℕ) (h : len < t * 1024) :
    t * 1024 ≤ adjustedSizeLen len t ∧ adjustedSizeLen len t ≤ t * 1024 + 1 := by
  unfold adjustedSizeLen
  split <;> omega

/-- C6: the padding corrector `_adjust_file_size` is a no-op on
already-satisfying input, never decreases the length, and only ever
appends: the original content is an unchanged prefix of the output. -/
theorem c6_padding_append_only (content : List ℕ) (t : ℕ) :
    (t * 1024 ≤ content.length → adjust_file_size content t = content) ∧
    content.length ≤ (adjust_file_size content t).length ∧
    ∃ rest, adjust_file_size content t = content ++ rest := by
  refine ⟨fun h => ?_, ?_, ?_⟩
  · unfold adjust_file_size
    simp [h]
  · rw [adjust_file_size_length]
    unfold adjustedSizeLen
    split <;> omega
  · unfold adjust_file_size
    split
    · exact ⟨[], by simp⟩
    · exact ⟨_, rfl⟩

theorem c6_witness :
    ((1 : ℕ) * 1024 ≤ (List.replicate 2048 (7 : ℕ)).length →
        adjust_file_size (List.replicate 2048 7) 1 = List.replicate 2048 7) ∧
    (List.replicate 2048 (7 : ℕ)).length ≤ (adjust_file_size (List.replicate 2048 7) 1).length ∧
    ∃ rest, adjust_file_size (List.replicate 2048 7) 1 = List.replicate 2048 7 ++ rest :=
  c6_padding_append_only (List.replicate 2048 7) 1

/-- C5 (amended): `_adjust_file_size` is a no-op when the length already
reaches `target_kb * 1024`; when at least two bytes are missing it
appends the two-byte sentinel 0xff 0xfe followed by zero bytes and the
result has exactly `target_kb * 1024` bytes; in the one remaining case,
where exactly one byte is missing, the two-byte sentinel overshoots and
the result has `target_kb * 1024 + 1` bytes. -/
theorem c5_padding_exact_size (content : List ℕ) (t : ℕ) :
    (t * 1024 ≤ content.length → adjust_file_size content t = content) ∧
    (content.length + 2 ≤ t * 1024 →
        adjust_file_size content t =
          content ++ 255 :: 254 :: List.replicate (t * 1024 - content.length - 2) 0 ∧
        (adjust_file_size content t).length = t * 1024) ∧
    (content.length + 1 = t * 1024 →
        (adjust_file_size content t).length = t * 1024 + 1) := by
  refine ⟨fun h => ?_, fun h => ⟨?_, ?_⟩, fun h => ?_⟩
  · unfold adjust_file_size
    simp [h]
  · unfold adjust_file_size
    rw [if_neg (by omega)]
  · rw [adjust_file_size_length]
    unfold adjustedSizeLen
    rw [if_neg (by omega)]
    omega
  · rw [adjust_file_size_length]
    unfold adjustedSizeLen
    rw [if_neg (by omega)]
    omega

/-- C5 counterexample: a 1023-byte file padded towards a 1 KB target is
one byte short, receives the two-byte sentinel, and ends at 1025 bytes,
not at the claimed exact `1 * 1024 = 1024` bytes. -/
theorem c5_counterexample :
    (List.replicate 1023 (0 : ℕ)).length < 1 * 1024 ∧
    (adjust_file_size (List.replicate 1023 0) 1).length = 1025 ∧
    (adjust_file_size (List.replicate 1023 0) 1).length ≠ 1 * 1024 := by
  refine ⟨by rw [List.length_replicate]; omega, ?_, ?_⟩ <;>
    · rw [adjust_file_size_length, List.length_replicate]
      unfold adjustedSizeLen
      rw [if_neg (by omega)]
      try omega

theorem c5_witness :
    ((1 : ℕ) * 1024 ≤ (List.replicate 100 (1 : ℕ)).length →
        adjust_file_size (List.replicate 100 1) 1 = List.replicate 100 1) ∧
    ((List.replicate 100 (1 : ℕ)).length + 2 ≤ 1 * 1024 →
        adjust_file_size (List.replicate 100 1) 1 =
          List.replicate 100 1 ++
            255 :: 254 :: List.replicate (1 * 1024 - (List.replicate 100 (1 : ℕ)).length - 2) 0 ∧
        (adjust_file_size (List.replicate 100 1) 1).length = 1 * 1024) ∧
    ((List.replicate 100 (1 : ℕ)).length + 1 = 1 * 1024 →
        (adjust_file_size (List.replicate 100 1) 1).length = 1 * 1024 + 1) :=
  c5_padding_exact_size (List.replicate 100 1) 1

/-- State kept by the Python search loops in the locals
`current_quality`, `small_change_count` and `previous_size`
(`previous_size` is in bytes; `none` stands for the initial
`float("inf")`). -/
structure LoopState where
  quality : ℕ
  smallChangeCount : ℕ
  previousSize : Option ℕ
  deriving DecidableEq

/-- Outcome of one size-constrained search loop.  `success` carries the
size in bytes of the file left on disk at the `break`; `stallFailure`
carries the size reported in the raised `ValueError`.  `fuelOut` is an
artifact of the fuel parameter: the `while True` loops of
`_compress_jpg` and `_compress_png` have no iteration cap, so a run
that has not terminated within the given fuel is reported as
`fuelOut` with the state it would continue from. -/
inductive SearchResult where
  | success (finalSize : ℕ)
  | stallFailure (reported : ℕ)
  | fuelOut (st : LoopState)
  deriving DecidableEq

def SearchResult.isStall : SearchResult → Bool
  | .stallFailure _ => true
  | _ => false

/-- The stall test `size_reduction = previous_size - current_size;
size_reduction < 5` of the search loops, scaled to bytes: a reduction
of less than 5 KB is `previous - current < 5 * 1024`, computed in ℤ
because the size may also grow.  The initial `previous_size = inf`
makes the first reduction infinite, hence never small. -/
def smallReduction (prev : Option ℕ) (cur : ℕ) : Bool :=
  match prev with
  | none => false
  | some p => (p : ℤ) - (cur : ℤ) < 5 * 1024

/-- Size-constrained search loop shared by `_compress_jpg` and
`_compress_png` (ImageCompressor.py lines 557-591 and 599-632, and the
structurally identical lines 439-468 and 476-504; the two functions
differ only in the external encoder, abstracted here as
`enc : quality -> size in bytes`).  Parameters: `stopKB` is the bound of
the break test (`max_size` for a range, `target_size` for an exact
target), `padKB` the argument later given to `_adjust_file_size`
(`min_size` resp. `target_size`), `stepq` the quality decrement (5 for
range searches, 10 for exact-target searches), and `padAll` selects
between the exact-target loops, which call `_adjust_file_size`
unconditionally before the `break`, and the range loops, which call it
only when the size is below `padKB`.  Each iteration encodes at the
current quality, breaks with the (possibly padded) size when the break
test passes, otherwise runs the stall detector and steps the quality
down clamped at 1 (`max(1, current_quality - step)`).  The returned
list records the `(quality, encoded size)` pair of every attempt; it is
ghost instrumentation and does not influence the computation. -/
def sizeLoop (enc : ℕ → ℕ) (stopKB padKB stepq : ℕ) (padAll : Bool) :
    ℕ → LoopState → List (ℕ × ℕ) × SearchResult
  | 0, st => ([], .fuelOut st)
  | fuel + 1, st =>
    let cur := enc st.quality
    if cur ≤ stopKB * 1024 then
      ([(st.quality, cur)],
        .success
          (if padAll then adjustedSizeLen cur padKB
           else if cur < padKB * 1024 then adjustedSizeLen cur padKB else cur))
    else if smallReduction st.previousSize cur then
      if 3 ≤ st.smallChangeCount + 1 then
        ([(st.quality, cur)], .stallFailure cur)
      else
        let r := sizeLoop enc stopKB padKB stepq padAll fuel
          ⟨max 1 (st.quality - stepq), st.smallChangeCount + 1, some cur⟩
        ((st.quality, cur) :: r.1, r.2)
    else
      let r := sizeLoop enc stopKB padKB stepq padAll fuel
        ⟨max 1 (st.quality - stepq), 0, some cur⟩
      ((st.quality, cur) :: r.1, r.2)

/-- Exact-target search of `_compress_jpg` (lines 593-632) and
`_compress_png` (lines 470-504): initial quality 80, step 10,
`_adjust_file_size` applied unconditionally on the way out. -/
def targetSearch (enc : ℕ → ℕ) (targetKB fuel : ℕ) : List (ℕ × ℕ) × SearchResult :=
  sizeLoop enc targetKB targetKB 10 true fuel ⟨80, 0, none⟩

/-- Range search of `_compress_jpg` (lines 547-591) and `_compress_png`
(lines 429-468): initial quality is the supplied integer quality, or 90
when none was supplied (`quality if isinstance(quality, int) else 90`);
step 5; `_adjust_file_size` towards `min_size` only when the accepted
size is below it. -/
def rangeSearch (enc : ℕ → ℕ) (quality : Option ℕ) (minKB maxKB fuel : ℕ) :
    List (ℕ × ℕ) × SearchResult :=
  sizeLoop enc maxKB minKB 5 false fuel ⟨quality.getD 90, 0, none⟩

lemma sizeLoop_success_bounds (enc : ℕ → ℕ) (mnKB mxKB stepq : ℕ) (s : ℕ)
    (hlt : mnKB < mxKB) :
    ∀ (fuel : ℕ) (st : LoopState),
      (sizeLoop enc mxKB mnKB stepq false fuel st).2 = .success s →
      mnKB * 1024 ≤ s ∧ s ≤ mxKB * 1024 := by
  intro fuel
  induction fuel with
  | zero =>
    intro st h
    simp [sizeLoop] at h
  | succ f ih =>
    intro st h
    rw [sizeLoop] at h
    by_cases hbrk : enc st.quality ≤ mxKB * 1024
    · rw [if_pos hbrk] at h
      simp only [Bool.false_eq_true, if_false, SearchResult.success.injEq] at h
      by_cases hlo : enc st.quality < mnKB * 1024
      · rw [if_pos hlo] at h
        have hb := adjustedSizeLen_bounds (enc st.quality) mnKB hlo
        omega
      · rw [if_neg hlo] at h
        omega
    · rw [if_neg hbrk] at h
      by_cases hsm : smallReduction st.previousSize (enc st.quality) = true
      · rw [if_pos hsm] at h
        by_cases hc : 3 ≤ st.smallChangeCount + 1
        · rw [if_pos hc] at h
          simp at h
        · rw [if_neg hc] at h
          exact ih _ h
      · rw [if_neg hsm] at h
        exact ih _ h

/-- C1: for a valid range `0 < min < max`, whenever a range search loop
of `_compress_jpg` or `_compress_png` terminates successfully, the byte
size of the produced file lies in `[min * 1024, max * 1024]`, i.e. its
kilobyte size lies in `[min, max]`: the loop breaks as soon as the
encoded size is at most `max`, and a size below `min` is first handed
to `_adjust_file_size`, which only ever raises it back into the
range. -/
theorem c1_range_result_in_range (enc : ℕ → ℕ) (quality : Option ℕ)
    (mnKB mxKB fuel s : ℕ) (hmn : 0 < mnKB) (hlt : mnKB < mxKB)
    (hs : (rangeSearch enc quality mnKB mxKB fuel).2 = .success s) :
    mnKB * 1024 ≤ s ∧ s ≤ mxKB * 1024 :=
  sizeLoop_success_bounds enc mnKB mxKB 5 s hlt fuel ⟨quality.getD 90, 0, none⟩ hs

theorem c1_witness :
    (300 : ℕ) * 1024 ≤ 358400 ∧ (358400 : ℕ) ≤ 500 * 1024 :=
  c1_range_result_in_range (fun _ => 358400) none 300 500 1 358400 (by decide)
    (by decide) (by decide)

/-- A run of observed sizes in which every consecutive reduction,
starting from the given previous size, is small (below 5 KB). -/
def chainSmall : Option ℕ → List ℕ → Bool
  | _, [] => true
  | p, x :: xs => smallReduction p x && chainSmall (some x) xs

lemma sizeLoop_stall_trailing (enc : ℕ → ℕ) (stop pad stepq : ℕ) (pA : Bool) :
    ∀ (fuel : ℕ) (st : LoopState) (r : ℕ),
      st.smallChangeCount ≤ 2 →
      (sizeLoop enc stop pad stepq pA fuel st).2 = .stallFailure r →
      ∃ pre suf,
        (sizeLoop enc stop pad stepq pA fuel st).1.map Prod.snd = pre ++ suf ∧
        suf.getLast? = some r ∧
        ((pre = [] ∧ suf.length + st.smallChangeCount = 3 ∧
            chainSmall st.previousSize suf = true) ∨
          (∃ b pre2, pre = pre2 ++ [b] ∧ suf.length = 3 ∧
            chainSmall (some b) suf = true)) := by
  intro fuel
  induction fuel with
  | zero =>
    intro st r hc h
    simp [sizeLoop] at h
  | succ f ih =>
    intro st r hc h
    rw [sizeLoop] at h ⊢
    by_cases hbrk : enc st.quality ≤ stop * 1024
    · rw [if_pos hbrk] at h
      simp at h
    · rw [if_neg hbrk] at h ⊢
      by_cases hsm : smallReduction st.previousSize (enc st.quality) = true
      · rw [if_pos hsm] at h ⊢
        by_cases h3 : 3 ≤ st.smallChangeCount + 1
        · rw [if_pos h3] at h ⊢
          simp only [SearchResult.stallFailure.injEq] at h
          subst h
          refine ⟨[], [enc st.quality], by simp, by simp, Or.inl ⟨rfl, by simp; omega, ?_⟩⟩
          simp [chainSmall, hsm]
        · rw [if_neg h3] at h ⊢
          simp only at h ⊢
          obtain ⟨pre, suf, hmap, hlast, hdisj⟩ := ih _ r (by simp; omega) h
          rcases hdisj with ⟨hpre, hlen, hch⟩ | ⟨b, pre2, hpre, hlen, hch⟩
          · subst hpre
            simp only [List.nil_append] at hmap
            simp only at hlen hch
            rcases suf with _ | ⟨x, xs⟩
            · exfalso
              simp at hlen
              omega
            · refine ⟨[], enc st.quality :: x :: xs, ?_, ?_, Or.inl ⟨rfl, ?_, ?_⟩⟩
              · simp [hmap]
              · rw [List.getLast?_cons_cons]
                exact hlast
              · simp at hlen ⊢
                omega
              · simp only [chainSmall, Bool.and_eq_true] at hch ⊢
                exact ⟨hsm, hch⟩
          · subst hpre
            refine ⟨enc st.quality :: pre2 ++ [b], suf, ?_, hlast,
              Or.inr ⟨b, enc st.quality :: pre2, by simp, hlen, hch⟩⟩
            simp [hmap]
      · rw [if_neg hsm] at h ⊢
        simp only at h ⊢
        obtain ⟨pre, suf, hmap, hlast, hdisj⟩ := ih _ r (by simp) h
        rcases hdisj with ⟨hpre, hlen, hch⟩ | ⟨b, pre2, hpre, hlen, hch⟩
        · subst hpre
          simp only [List.nil_append] at hmap
          simp only at hlen hch
          refine ⟨[enc st.quality], suf, by simp [hmap], hlast,
            Or.inr ⟨enc st.quality, [], by simp, by omega, hch⟩⟩
        · subst hpre
          refine ⟨enc st.quality :: pre2 ++ [b], suf, ?_, hlast,
            Or.inr ⟨b, enc st.quality :: pre2, by simp, hlen, hch⟩⟩
          simp [hmap]

/-- Decomposition of a stalled run of the `_compress_jpg` /
`_compress_png` loops started from the initial state
`previous_size = inf, streak = 0`: the observed sizes split as
`pre ++ b :: suf` with `suf` the three small-reduction observations
measured from the base `b`, and the reported size the last of them. -/
lemma sizeLoop_stall_decomp (enc : ℕ → ℕ) (stop pad stepq : ℕ) (pA : Bool)
    (fuel q0 r : ℕ)
    (h : (sizeLoop enc stop pad stepq pA fuel ⟨q0, 0, none⟩).2 = .stallFailure r) :
    ∃ pre b suf,
      (sizeLoop enc stop pad stepq pA fuel ⟨q0, 0, none⟩).1.map Prod.snd
        = pre ++ b :: suf ∧
      suf.length = 3 ∧ chainSmall (some b) suf = true ∧
      suf.getLast? = some r ∧
      4 ≤ (sizeLoop enc stop pad stepq pA fuel ⟨q0, 0, none⟩).1.length := by
  obtain ⟨pre, suf, hmap, hlast, hdisj⟩ :=
    sizeLoop_stall_trailing enc stop pad stepq pA fuel ⟨q0, 0, none⟩ r (by simp) h
  rcases hdisj with ⟨hpre, hlen, hch⟩ | ⟨b, pre2, hpre, hlen, hch⟩
  · subst hpre
    simp only at hlen hch
    rcases suf with _ | ⟨x, xs⟩
    · simp at hlen
    · simp [chainSmall, smallReduction] at hch
  · subst hpre
    refine ⟨pre2, b, suf, by rw [hmap]; simp, hlen, hch, hlast, ?_⟩
    have hl : ((sizeLoop enc stop pad stepq pA fuel ⟨q0, 0, none⟩).1.map Prod.snd).length
        = pre2.length + 1 + suf.length := by
      rw [hmap]
      simp
      omega
    rw [List.length_map] at hl
    omega

/-- Encoder exhibiting an increasing tail of sizes: qualities
80, 70, 60, 50 give 1000 KB, 800 KB, 805 KB, 806 KB and every further
quality gives 807 KB (sizes in bytes). -/
def encUptick : ℕ → ℕ := fun q =>
  if q = 80 then 1024000
  else if q = 70 then 819200
  else if q = 60 then 824320
  else if q = 50 then 825344
  else 826368

/-- C2 counterexample: with `encUptick` and an exact 10 KB target, the
loop stalls after observing 1024000, 819200, 824320, 825344, 826368
bytes and the raised failure reports 826368 bytes, the most recent
size, although the best size achieved was 819200 bytes, so the stall
failure does not report the best size achieved. -/
theorem c2_counterexample :
    (targetSearch encUptick 10 12).2 = .stallFailure 826368 ∧
    ((targetSearch encUptick 10 12).1.map Prod.snd).contains 819200 = true ∧
    (819200 : ℕ) < 826368 := by
  refine ⟨by decide, by decide, by decide⟩

lemma stepDown_div (q : ℕ) (h : 2 ≤ q) :
    (max 1 (q - 10) + 8) / 10 + 1 = (q + 8) / 10 := by
  rcases le_or_lt q 10 with h10 | h10
  · have : max 1 (q - 10) = 1 := by
      rw [Nat.max_eq_left]
      omega
    rw [this]
    omega
  · have : max 1 (q - 10) = q - 10 := by
      rw [Nat.max_eq_right]
      omega
    rw [this]
    omega

lemma stall_at_floor (enc : ℕ → ℕ) (stop pad : ℕ) (pA : Bool)
    (hinf : ∀ q, stop * 1024 < enc q) :
    ∀ (fuel c : ℕ), 1 ≤ fuel → 3 ≤ c + fuel →
      ((sizeLoop enc stop pad 10 pA fuel ⟨1, c, some (enc 1)⟩).2).isStall = true := by
  intro fuel
  induction fuel with
  | zero =>
    intro c h1 h3
    omega
  | succ f ih =>
    intro c h1 h3
    rw [sizeLoop]
    have hsm : smallReduction (some (enc 1)) (enc 1) = true := by
      simp [smallReduction]
    simp only
    rw [if_neg (by have := hinf 1; omega), if_pos hsm]
    by_cases hc : 3 ≤ c + 1
    · rw [if_pos hc]
      rfl
    · rw [if_neg hc]
      simp only
      have hq : max 1 (1 - 10) = 1 := by decide
      rw [hq]
      exact ih (c + 1) (by omega) (by omega)

lemma stall_within (enc : ℕ → ℕ) (stop pad : ℕ) (pA : Bool)
    (hinf : ∀ q, stop * 1024 < enc q) :
    ∀ (fuel : ℕ) (st : LoopState), 1 ≤ st.quality →
      (st.quality + 8) / 10 + 4 ≤ fuel →
      ((sizeLoop enc stop pad 10 pA fuel st).2).isStall = true := by
  intro fuel
  induction fuel with
  | zero =>
    intro st h1 hf
    omega
  | succ f ih =>
    intro st h1 hf
    obtain ⟨q, c, p⟩ := st
    simp only at h1 hf
    rw [sizeLoop]
    simp only
    rw [if_neg (by have := hinf q; omega)]
    have key : ∀ c2 : ℕ,
        ((sizeLoop enc stop pad 10 pA f ⟨max 1 (q - 10), c2, some (enc q)⟩).2).isStall
          = true := by
      intro c2
      by_cases hq1 : q = 1
      · subst hq1
        have hq : max 1 (1 - 10) = 1 := by decide
        rw [hq]
        exact stall_at_floor enc stop pad pA hinf f c2 (by omega) (by omega)
      · have h2 : 2 ≤ q := by omega
        apply ih ⟨max 1 (q - 10), c2, some (enc q)⟩ (le_max_left 1 (q - 10))
        have := stepDown_div q h2
        simp only
        omega
    by_cases hsm : smallReduction p (enc q) = true
    · rw [if_pos hsm]
      by_cases hc : 3 ≤ c + 1
      · rw [if_pos hc]
        rfl
      · rw [if_neg hc]
        simp only
        exact key (c + 1)
    · rw [if_neg hsm]
      simp only
      exact key 0

/-- C3 (amended): for every encoder that can never reach the exact
target, the PNG/JPEG exact-target search terminates by raising the
stall (convergence) failure within at most 12 attempts: quality
bottoms out at its clamp of 1 after at most 9 attempts and the stall
detector then fires within 3 more.  These loops have no 10-attempt cap
of their own. -/
theorem c3_infeasible_terminates (enc : ℕ → ℕ) (targetKB : ℕ)
    (hinf : ∀ q, targetKB * 1024 < enc q) :
    ((targetSearch enc targetKB 12).2).isStall = true :=
  stall_within enc targetKB targetKB true hinf 12 ⟨80, 0, none⟩ (by decide) (by decide)

/-- Encoder whose sizes shrink by more than 5 KB on every quality
decrement (12500 bytes per step of 10) while always staying far above a
10 KB target, so that the stall detector cannot fire until the quality
is pinned at its clamp of 1. -/
def encSlow : ℕ → ℕ := fun q => 924000 + 1250 * q

/-- Over the whole quality scale 0-100, `encSlow` never comes close to
the 10 KB target. -/
def encSlowNeverFits : Bool :=
  (List.range 101).all fun q => 10 * 1024 < encSlow q

/-- C3 counterexample: with `encSlow` and the infeasible exact target of
10 KB, after 10 attempts the exact-target loop of `_compress_jpg` /
`_compress_png` is still running (the code has no attempt cap), and the
run only terminates, via the stall failure, at attempt 12 — refuting
termination "within at most 10 attempts". -/
theorem c3_counterexample :
    encSlowNeverFits = true ∧
    (targetSearch encSlow 10 10).2 = .fuelOut ⟨1, 1, some 925250⟩ ∧
    (targetSearch encSlow 10 12).2 = .stallFailure 925250 := by
  refine ⟨by decide, by decide, by decide⟩

theorem c3_witness :
    ((targetSearch (fun _ => 1024000) 10 12).2).isStall = true :=
  c3_infeasible_terminates (fun _ => 1024000) 10
    (fun _ => (by decide : (10 : ℕ) * 1024 < 1024000))

lemma max_one_sub (m k : ℕ) : max 1 (max 1 m - k) = max 1 (m - k) := by
  rcases Nat.le_total m 1 with h | h
  · rw [Nat.max_eq_left h]
    have ha : max 1 (1 - k) = 1 := Nat.max_eq_left (by omega)
    have hb : max 1 (m - k) = 1 := Nat.max_eq_left (by omega)
    rw [ha, hb]
  · rw [Nat.max_eq_right h]

lemma max_step_iterate (q stepq j : ℕ) :
    max 1 (max 1 (q - stepq) - stepq * j) = max 1 (q - stepq * (j + 1)) := by
  rw [max_one_sub, Nat.sub_sub, Nat.add_comm stepq (stepq * j), ← Nat.mul_succ]

lemma sizeLoop_trace_quality (enc : ℕ → ℕ) (stop pad stepq : ℕ) (pA : Bool) :
    ∀ (fuel : ℕ) (st : LoopState), 1 ≤ st.quality →
      ∀ i, i < (sizeLoop enc stop pad stepq pA fuel st).1.length →
        ((sizeLoop enc stop pad stepq pA fuel st).1.getD i (0, 0)).1
          = max 1 (st.quality - stepq * i) := by
  intro fuel
  induction fuel with
  | zero =>
    intro st h1 i hi
    simp [sizeLoop] at hi
  | succ f ih =>
    intro st h1 i hi
    rw [sizeLoop] at hi ⊢
    by_cases hbrk : enc st.quality ≤ stop * 1024
    · rw [if_pos hbrk] at hi ⊢
      simp only [List.length_cons, List.length_nil] at hi
      have hi0 : i = 0 := by omega
      subst hi0
      simp only [List.getD_cons_zero, Nat.mul_zero, Nat.sub_zero]
      rw [Nat.max_eq_right h1]
    · rw [if_neg hbrk] at hi ⊢
      by_cases hsm : smallReduction st.previousSize (enc st.quality) = true
      · rw [if_pos hsm] at hi ⊢
        by_cases h3 : 3 ≤ st.smallChangeCount + 1
        · rw [if_pos h3] at hi ⊢
          simp only [List.length_cons, List.length_nil] at hi
          have hi0 : i = 0 := by omega
          subst hi0
          simp only [List.getD_cons_zero, Nat.mul_zero, Nat.sub_zero]
          rw [Nat.max_eq_right h1]
        · rw [if_neg h3] at hi ⊢
          simp only [List.length_cons] at hi
          cases i with
          | zero =>
            simp only [List.getD_cons_zero, Nat.mul_zero, Nat.sub_zero]
            rw [Nat.max_eq_right h1]
          | succ j =>
            simp only [List.getD_cons_succ]
            rw [ih _ (le_max_left 1 _) j (by omega)]
            exact max_step_iterate st.quality stepq j
      · rw [if_neg hsm] at hi ⊢
        simp only [List.length_cons] at hi
        cases i with
        | zero =>
          simp only [List.getD_cons_zero, Nat.mul_zero, Nat.sub_zero]
          rw [Nat.max_eq_right h1]
        | succ j =>
          simp only [List.getD_cons_succ]
          rw [ih _ (le_max_left 1 _) j (by omega)]
          exact max_step_iterate st.quality stepq j

lemma sizeLoop_trace_exceeds (enc : ℕ → ℕ) (stop pad stepq : ℕ) (pA : Bool) :
    ∀ (fuel : ℕ) (st : LoopState) (i : ℕ),
      i + 1 < (sizeLoop enc stop pad stepq pA fuel st).1.length →
      stop * 1024 < ((sizeLoop enc stop pad stepq pA fuel st).1.getD i (0, 0)).2 := by
  intro fuel
  induction fuel with
  | zero =>
    intro st i hi
    simp [sizeLoop] at hi
  | succ f ih =>
    intro st i hi
    rw [sizeLoop] at hi ⊢
    by_cases hbrk : enc st.quality ≤ stop * 1024
    · rw [if_pos hbrk] at hi ⊢
      simp only [List.length_cons, List.length_nil] at hi
      omega
    · rw [if_neg hbrk] at hi ⊢
      by_cases hsm : smallReduction st.previousSize (enc st.quality) = true
      · rw [if_pos hsm] at hi ⊢
        by_cases h3 : 3 ≤ st.smallChangeCount + 1
        · rw [if_pos h3] at hi ⊢
          simp only [List.length_cons, List.length_nil] at hi
          omega
        · rw [if_neg h3] at hi ⊢
          simp only [List.length_cons] at hi
          cases i with
          | zero =>
            simp only [List.getD_cons_zero]
            omega
          | succ j =>
            simp only [List.getD_cons_succ]
            exact ih _ j (by omega)
      · rw [if_neg hsm] at hi ⊢
        simp only [List.length_cons] at hi
        cases i with
        | zero =>
          simp only [List.getD_cons_zero]
          omega
        | succ j =>
          simp only [List.getD_cons_succ]
          exact ih _ j (by omega)

/-- C8: in the exact-target search the quality of attempt `i` is
`max 1 (80 - 10 i)` — it starts at 80, falls by a fixed step of 10 per
failed attempt and is clamped below at 1, staying inside `[1, 100]` —
and in the range search (whose initial quality is the supplied value,
default 90, assumed to be a valid quality in `[1, 100]`) it is
`max 1 (q0 - 5 i)`, falling by a fixed step of 5.  Moreover every
attempt except possibly the last saw a size strictly above the relevant
upper bound: the quality only ever decreases while the size still
exceeds that bound. -/
theorem c8_quality_stepping (encT encR : ℕ → ℕ) (tKB mnKB mxKB fuelT fuelR : ℕ)
    (q : Option ℕ) (h1 : 1 ≤ q.getD 90) (h100 : q.getD 90 ≤ 100) :
    (∀ i, i < (targetSearch encT tKB fuelT).1.length →
        ((targetSearch encT tKB fuelT).1.getD i (0, 0)).1 = max 1 (80 - 10 * i) ∧
        1 ≤ ((targetSearch encT tKB fuelT).1.getD i (0, 0)).1 ∧
        ((targetSearch encT tKB fuelT).1.getD i (0, 0)).1 ≤ 100) ∧
    (∀ i, i + 1 < (targetSearch encT tKB fuelT).1.length →
        tKB * 1024 < ((targetSearch encT tKB fuelT).1.getD i (0, 0)).2) ∧
    (∀ i, i < (rangeSearch encR q mnKB mxKB fuelR).1.length →
        ((rangeSearch encR q mnKB mxKB fuelR).1.getD i (0, 0)).1
          = max 1 (q.getD 90 - 5 * i) ∧
        1 ≤ ((rangeSearch encR q mnKB mxKB fuelR).1.getD i (0, 0)).1 ∧
        ((rangeSearch encR q mnKB mxKB fuelR).1.getD i (0, 0)).1 ≤ 100) ∧
    (∀ i, i + 1 < (rangeSearch encR q mnKB mxKB fuelR).1.length →
        mxKB * 1024 < ((rangeSearch encR q mnKB mxKB fuelR).1.getD i (0, 0)).2) := by
  refine ⟨fun i hi => ?_, fun i hi => ?_, fun i hi => ?_, fun i hi => ?_⟩
  · simp only [targetSearch] at hi ⊢
    have hq : ((sizeLoop encT tKB tKB 10 true fuelT ⟨80, 0, none⟩).1.getD i (0, 0)).1
        = max 1 (80 - 10 * i) :=
      sizeLoop_trace_quality encT tKB tKB 10 true fuelT ⟨80, 0, none⟩ (by decide) i hi
    refine ⟨hq, ?_, ?_⟩ <;> rw [hq]
    · exact le_max_left 1 _
    · exact Nat.max_le.mpr ⟨by omega, by omega⟩
  · simp only [targetSearch] at hi ⊢
    exact sizeLoop_trace_exceeds encT tKB tKB 10 true fuelT ⟨80, 0, none⟩ i hi
  · simp only [rangeSearch] at hi ⊢
    have hq : ((sizeLoop encR mxKB mnKB 5 false fuelR ⟨q.getD 90, 0, none⟩).1.getD i (0, 0)).1
        = max 1 (q.getD 90 - 5 * i) :=
      sizeLoop_trace_quality encR mxKB mnKB 5 false fuelR ⟨q.getD 90, 0, none⟩ h1 i hi
    refine ⟨hq, ?_, ?_⟩ <;> rw [hq]
    · exact le_max_left 1 _
    · exact Nat.max_le.mpr ⟨by omega, by omega⟩
  · simp only [rangeSearch] at hi ⊢
    exact sizeLoop_trace_exceeds encR mxKB mnKB 5 false fuelR ⟨q.getD 90, 0, none⟩ i hi

theorem c8_witness :
    (∀ i, i < (targetSearch (fun _ => 2048) 1 4).1.length →
        ((targetSearch (fun _ => 2048) 1 4).1.getD i (0, 0)).1 = max 1 (80 - 10 * i) ∧
        1 ≤ ((targetSearch (fun _ => 2048) 1 4).1.getD i (0, 0)).1 ∧
        ((targetSearch (fun _ => 2048) 1 4).1.getD i (0, 0)).1 ≤ 100) ∧
    (∀ i, i + 1 < (targetSearch (fun _ => 2048) 1 4).1.length →
        1 * 1024 < ((targetSearch (fun _ => 2048) 1 4).1.getD i (0, 0)).2) ∧
    (∀ i, i < (rangeSearch (fun _ => 2048) none 1 2 4).1.length →
        ((rangeSearch (fun _ => 2048) none 1 2 4).1.getD i (0, 0)).1
          = max 1 ((none : Option ℕ).getD 90 - 5 * i) ∧
        1 ≤ ((rangeSearch (fun _ => 2048) none 1 2 4).1.getD i (0, 0)).1 ∧
        ((rangeSearch (fun _ => 2048) none 1 2 4).1.getD i (0, 0)).1 ≤ 100) ∧
    (∀ i, i + 1 < (rangeSearch (fun _ => 2048) none 1 2 4).1.length →
        2 * 1024 < ((rangeSearch (fun _ => 2048) none 1 2 4).1.getD i (0, 0)).2) :=
  c8_quality_stepping (fun _ => 2048) (fun _ => 2048) 1 1 2 4 4 none (by decide) (by decide)

/-- State of the `_convert_to_webp` loop: the locals `quality`,
`small_change_count`, `previous_size` (bytes; `none` is the initial
`float("inf")`). -/
structure WebpState where
  quality : ℕ
  smallChangeCount : ℕ
  previousSize : Option ℕ
  deriving DecidableEq

/-- Outcome of `_convert_to_webp` (ImageCompressor.py lines 274-341).
`success` carries the byte size of the WebP file the function returns;
`stallFailure` the size reported in the raised `ValueError`.  There is
no fuel artifact here: the loop is `while attempts < 10`, and when the
cap is exhausted the function falls out of the loop and returns the
WebP file from the last encode — as a success. -/
inductive WebpResult where
  | success (finalSize : ℕ)
  | stallFailure (reported : ℕ)
  deriving DecidableEq

/-- The `while attempts < 10` loop of `_convert_to_webp`, counted down
by `fuel = 10 - attempts` (callers start it at 10, matching the code;
see `webpConvert`).  Each iteration encodes at the current quality
(`enc : quality -> size in bytes` abstracts the WEBP save).  With a
target: sizes at most the target break out, padding via
`_adjust_file_size` when strictly below it.  With a range: sizes at
most the maximum break out, padding towards the minimum when strictly
below it.  With no constraint the loop breaks immediately.  Otherwise
the stall detector runs and the quality is stepped: down by 5 clamped
at 10 while the size exceeds the upper bound, else up by 5 clamped at
100 (the upward branch is unreachable when a constraint is active,
since a size within the bound broke out; it is kept for fidelity).
When the fuel hits 0 after a full iteration, the file on disk holds the
bytes of the last encode, whose size is the `previous_size` of the
state, and it is returned as a success.  The quality update with an
active exact target compares against the target itself, mirroring
`target_size if target_size else size_range[1]` for the positive
targets enforced by the callers. -/
def webpLoop (enc : ℕ → ℕ) (targetKB : Option ℕ) (sizeRange : Option (ℕ × ℕ)) :
    ℕ → WebpState → WebpResult
  | 0, st => .success (st.previousSize.getD 0)
  | fuel + 1, st =>
    let cur := enc st.quality
    match targetKB, sizeRange with
    | some t, _ =>
      if cur ≤ t * 1024 then
        .success (if cur < t * 1024 then adjustedSizeLen cur t else cur)
      else if smallReduction st.previousSize cur then
        if 3 ≤ st.smallChangeCount + 1 then .stallFailure cur
        else
          webpLoop enc targetKB sizeRange fuel
            ⟨if t * 1024 < cur then max 10 (st.quality - 5) else min 100 (st.quality + 5),
              st.smallChangeCount + 1, some cur⟩
      else
        webpLoop enc targetKB sizeRange fuel
          ⟨if t * 1024 < cur then max 10 (st.quality - 5) else min 100 (st.quality + 5),
            0, some cur⟩
    | none, some (mn, mx) =>
      if cur ≤ mx * 1024 then
        .success (if cur < mn * 1024 then adjustedSizeLen cur mn else cur)
      else if smallReduction st.previousSize cur then
        if 3 ≤ st.smallChangeCount + 1 then .stallFailure cur
        else
          webpLoop enc targetKB sizeRange fuel
            ⟨if mx * 1024 < cur then max 10 (st.quality - 5) else min 100 (st.quality + 5),
              st.smallChangeCount + 1, some cur⟩
      else
        webpLoop enc targetKB sizeRange fuel
          ⟨if mx * 1024 < cur then max 10 (st.quality - 5) else min 100 (st.quality + 5),
            0, some cur⟩
    | none, none => .success cur

/-- Entry point of the `_convert_to_webp` search: `attempts = 0` against
the cap of 10, quality starting at the `webp_quality` argument,
`small_change_count = 0`, `previous_size = inf`. -/
def webpConvert (enc : ℕ → ℕ) (targetKB : Option ℕ) (sizeRange : Option (ℕ × ℕ))
    (webpQuality : ℕ) : WebpResult :=
  webpLoop enc targetKB sizeRange 10 ⟨webpQuality, 0, none⟩

/-- Encoder whose WebP sizes shrink by about 10 KB per attempt but stay
two orders of magnitude above a 10 KB target: quality q encodes to
`500000 + 2000 * q` bytes. -/
def encCap : ℕ → ℕ := fun q => 500000 + 2000 * q

/-- C4: evaluation of `_convert_to_webp` at the failing input.  With
`encCap`, a 10 KB target and the default `webp_quality = 100`, the loop
runs its full 10 attempts at qualities 100, 95, ..., 55 without the
stall detector firing (every reduction is 10000 bytes), exhausts the
attempt cap, and returns success with the 610000-byte file of the last
encode — 610000 bytes is far above the 10 KB target, yet no failure is
signalled. -/
theorem c4_webp_cap_silent_success :
    webpConvert encCap (some 10) none 100 = .success 610000 ∧
    10 * 1024 < 610000 := by
  refine ⟨by decide, by decide⟩

/-- Instrumented rendering of the `_convert_to_webp` loop: identical to
`webpLoop` arm for arm, additionally recording the `(quality, encoded
size)` pair of every attempt, so that properties of the observed size
stream can be stated.  `webpLoopTrace_result` proves that the result
component always agrees with `webpLoop`. -/
def webpLoopTrace (enc : ℕ → ℕ) (targetKB : Option ℕ) (sizeRange : Option (ℕ × ℕ)) :
    ℕ → WebpState → List (ℕ × ℕ) × WebpResult
  | 0, st => ([], .success (st.previousSize.getD 0))
  | fuel + 1, st =>
    let cur := enc st.quality
    match targetKB, sizeRange with
    | some t, _ =>
      if cur ≤ t * 1024 then
        ([(st.quality, cur)],
          .success (if cur < t * 1024 then adjustedSizeLen cur t else cur))
      else if smallReduction st.previousSize cur then
        if 3 ≤ st.smallChangeCount + 1 then ([(st.quality, cur)], .stallFailure cur)
        else
          let r := webpLoopTrace enc targetKB sizeRange fuel
            ⟨if t * 1024 < cur then max 10 (st.quality - 5) else min 100 (st.quality + 5),
              st.smallChangeCount + 1, some cur⟩
          ((st.quality, cur) :: r.1, r.2)
      else
        let r := webpLoopTrace enc targetKB sizeRange fuel
          ⟨if t * 1024 < cur then max 10 (st.quality - 5) else min 100 (st.quality + 5),
            0, some cur⟩
        ((st.quality, cur) :: r.1, r.2)
    | none, some (mn, mx) =>
      if cur ≤ mx * 1024 then
        ([(st.quality, cur)],
          .success (if cur < mn * 1024 then adjustedSizeLen cur mn else cur))
      else if smallReduction st.previousSize cur then
        if 3 ≤ st.smallChangeCount + 1 then ([(st.quality, cur)], .stallFailure cur)
        else
          let r := webpLoopTrace enc targetKB sizeRange fuel
            ⟨if mx * 1024 < cur then max 10 (st.quality - 5) else min 100 (st.quality + 5),
              st.smallChangeCount + 1, some cur⟩
          ((st.quality, cur) :: r.1, r.2)
      else
        let r := webpLoopTrace enc targetKB sizeRange fuel
          ⟨if mx * 1024 < cur then max 10 (st.quality - 5) else min 100 (st.quality + 5),
            0, some cur⟩
        ((st.quality, cur) :: r.1, r.2)
    | none, none => ([(st.quality, cur)], .success cur)

lemma webpLoopTrace_result (enc : ℕ → ℕ) (targetKB : Option ℕ)
    (sizeRange : Option (ℕ × ℕ)) :
    ∀ (fuel : ℕ) (st : WebpState),
      (webpLoopTrace enc targetKB sizeRange fuel st).2
        = webpLoop enc targetKB sizeRange fuel st := by
  intro fuel
  induction fuel with
  | zero => intro st; rfl
  | succ f ih =>
    intro st
    rcases targetKB with _ | t
    · rcases sizeRange with _ | ⟨mn, mx⟩
      · rfl
      · simp only [webpLoopTrace, webpLoop]
        by_cases hbrk : enc st.quality ≤ mx * 1024
        · simp only [if_pos hbrk]
        · simp only [if_neg hbrk]
          by_cases hsm : smallReduction st.previousSize (enc st.quality) = true
          · simp only [if_pos hsm]
            by_cases h3 : 3 ≤ st.smallChangeCount + 1
            · simp only [if_pos h3]
            · simp only [if_neg h3]
              exact ih _
          · simp only [if_neg hsm]
            exact ih _
    · simp only [webpLoopTrace, webpLoop]
      by_cases hbrk : enc st.quality ≤ t * 1024
      · simp only [if_pos hbrk]
      · simp only [if_neg hbrk]
        by_cases hsm : smallReduction st.previousSize (enc st.quality) = true
        · simp only [if_pos hsm]
          by_cases h3 : 3 ≤ st.smallChangeCount + 1
          · simp only [if_pos h3]
          · simp only [if_neg h3]
            exact ih _
        · simp only [if_neg hsm]
          exact ih _

lemma webpLoopTrace_stall_trailing (enc : ℕ → ℕ) (targetKB : Option ℕ)
    (sizeRange : Option (ℕ × ℕ)) :
    ∀ (fuel : ℕ) (st : WebpState) (r : ℕ),
      st.smallChangeCount ≤ 2 →
      (webpLoopTrace enc targetKB sizeRange fuel st).2 = .stallFailure r →
      ∃ pre suf,
        (webpLoopTrace enc targetKB sizeRange fuel st).1.map Prod.snd = pre ++ suf ∧
        suf.getLast? = some r ∧
        ((pre = [] ∧ suf.length + st.smallChangeCount = 3 ∧
            chainSmall st.previousSize suf = true) ∨
          (∃ b pre2, pre = pre2 ++ [b] ∧ suf.length = 3 ∧
            chainSmall (some b) suf = true)) := by
  intro fuel
  induction fuel with
  | zero =>
    intro st r hc h
    simp [webpLoopTrace] at h
  | succ f ih =>
    intro st r hc h
    rcases targetKB with _ | t
    · rcases sizeRange with _ | ⟨mn, mx⟩
      · simp only [webpLoopTrace] at h
        simp at h
      · simp only [webpLoopTrace] at h ⊢
        by_cases hbrk : enc st.quality ≤ mx * 1024
        · rw [if_pos hbrk] at h
          simp at h
        · rw [if_neg hbrk] at h ⊢
          by_cases hsm : smallReduction st.previousSize (enc st.quality) = true
          · rw [if_pos hsm] at h ⊢
            by_cases h3 : 3 ≤ st.smallChangeCount + 1
            · rw [if_pos h3] at h ⊢
              simp only [WebpResult.stallFailure.injEq] at h
              subst h
              refine ⟨[], [enc st.quality], by simp, by simp,
                Or.inl ⟨rfl, by simp; omega, ?_⟩⟩
              simp [chainSmall, hsm]
            · rw [if_neg h3] at h ⊢
              simp only at h ⊢
              obtain ⟨pre, suf, hmap, hlast, hdisj⟩ := ih _ r (by simp; omega) h
              rcases hdisj with ⟨hpre, hlen, hch⟩ | ⟨b, pre2, hpre, hlen, hch⟩
              · subst hpre
                simp only [List.nil_append] at hmap
                simp only at hlen hch
                rcases suf with _ | ⟨x, xs⟩
                · exfalso
                  simp at hlen
                  omega
                · refine ⟨[], enc st.quality :: x :: xs, ?_, ?_, Or.inl ⟨rfl, ?_, ?_⟩⟩
                  · simp [hmap]
                  · rw [List.getLast?_cons_cons]
                    exact hlast
                  · simp at hlen ⊢
                    omega
                  · simp only [chainSmall, Bool.and_eq_true] at hch ⊢
                    exact ⟨hsm, hch⟩
              · subst hpre
                refine ⟨enc st.quality :: pre2 ++ [b], suf, ?_, hlast,
                  Or.inr ⟨b, enc st.quality :: pre2, by simp, hlen, hch⟩⟩
                simp [hmap]
          · rw [if_neg hsm] at h ⊢
            simp only at h ⊢
            obtain ⟨pre, suf, hmap, hlast, hdisj⟩ := ih _ r (by simp) h
            rcases hdisj with ⟨hpre, hlen, hch⟩ | ⟨b, pre2, hpre, hlen, hch⟩
            · subst hpre
              simp only [List.nil_append] at hmap
              simp only at hlen hch
              refine ⟨[enc st.quality], suf, by simp [hmap], hlast,
                Or.inr ⟨enc st.quality, [], by simp, by omega, hch⟩⟩
            · subst hpre
              refine ⟨enc st.quality :: pre2 ++ [b], suf, ?_, hlast,
                Or.inr ⟨b, enc st.quality :: pre2, by simp, hlen, hch⟩⟩
              simp [hmap]
    · simp only [webpLoopTrace] at h ⊢
      by_cases hbrk : enc st.quality ≤ t * 1024
      · rw [if_pos hbrk] at h
        simp at h
      · rw [if_neg hbrk] at h ⊢
        by_cases hsm : smallReduction st.previousSize (enc st.quality) = true
        · rw [if_pos hsm] at h ⊢
          by_cases h3 : 3 ≤ st.smallChangeCount + 1
          · rw [if_pos h3] at h ⊢
            simp only [WebpResult.stallFailure.injEq] at h
            subst h
            refine ⟨[], [enc st.quality], by simp, by simp,
              Or.inl ⟨rfl, by simp; omega, ?_⟩⟩
            simp [chainSmall, hsm]
          · rw [if_neg h3] at h ⊢
            simp only at h ⊢
            obtain ⟨pre, suf, hmap, hlast, hdisj⟩ := ih _ r (by simp; omega) h
            rcases hdisj with ⟨hpre, hlen, hch⟩ | ⟨b, pre2, hpre, hlen, hch⟩
            · subst hpre
              simp only [List.nil_append] at hmap
              simp only at hlen hch
              rcases suf with _ | ⟨x, xs⟩
              · exfalso
                simp at hlen
                omega
              · refine ⟨[], enc st.quality :: x :: xs, ?_, ?_, Or.inl ⟨rfl, ?_, ?_⟩⟩
                · simp [hmap]
                · rw [List.getLast?_cons_cons]
                  exact hlast
                · simp at hlen ⊢
                  omega
                · simp only [chainSmall, Bool.and_eq_true] at hch ⊢
                  exact ⟨hsm, hch⟩
            · subst hpre
              refine ⟨enc st.quality :: pre2 ++ [b], suf, ?_, hlast,
                Or.inr ⟨b, enc st.quality :: pre2, by simp, hlen, hch⟩⟩
              simp [hmap]
        · rw [if_neg hsm] at h ⊢
          simp only at h ⊢
          obtain ⟨pre, suf, hmap, hlast, hdisj⟩ := ih _ r (by simp) h
          rcases hdisj with ⟨hpre, hlen, hch⟩ | ⟨b, pre2, hpre, hlen, hch⟩
          · subst hpre
            simp only [List.nil_append] at hmap
            simp only at hlen hch
            refine ⟨[enc st.quality], suf, by simp [hmap], hlast,
              Or.inr ⟨enc st.quality, [], by simp, by omega, hch⟩⟩
          · subst hpre
            refine ⟨enc st.quality :: pre2 ++ [b], suf, ?_, hlast,
              Or.inr ⟨b, enc st.quality :: pre2, by simp, hlen, hch⟩⟩
            simp [hmap]

/-- Decomposition of a stalled run of the `_convert_to_webp` loop
started from the initial state `previous_size = inf, streak = 0`:
identical shape to `sizeLoop_stall_decomp`. -/
lemma webpLoopTrace_stall_decomp (enc : ℕ → ℕ) (targetKB : Option ℕ)
    (sizeRange : Option (ℕ × ℕ)) (fuel q0 r : ℕ)
    (h : (webpLoopTrace enc targetKB sizeRange fuel ⟨q0, 0, none⟩).2
      = .stallFailure r) :
    ∃ pre b suf,
      (webpLoopTrace enc targetKB sizeRange fuel ⟨q0, 0, none⟩).1.map Prod.snd
        = pre ++ b :: suf ∧
      suf.length = 3 ∧ chainSmall (some b) suf = true ∧
      suf.getLast? = some r ∧
      4 ≤ (webpLoopTrace enc targetKB sizeRange fuel ⟨q0, 0, none⟩).1.length := by
  obtain ⟨pre, suf, hmap, hlast, hdisj⟩ :=
    webpLoopTrace_stall_trailing enc targetKB sizeRange fuel ⟨q0, 0, none⟩ r (by simp) h
  rcases hdisj with ⟨hpre, hlen, hch⟩ | ⟨b, pre2, hpre, hlen, hch⟩
  · subst hpre
    simp only at hlen hch
    rcases suf with _ | ⟨x, xs⟩
    · simp at hlen
    · simp [chainSmall, smallReduction] at hch
  · subst hpre
    refine ⟨pre2, b, suf, by rw [hmap]; simp, hlen, hch, hlast, ?_⟩
    have hl : ((webpLoopTrace enc targetKB sizeRange fuel ⟨q0, 0, none⟩).1.map
          Prod.snd).length
        = pre2.length + 1 + suf.length := by
      rw [hmap]
      simp
      omega
    rw [List.length_map] at hl
    omega

/-- C2 (amended): in every search loop — the `_compress_jpg` /
`_compress_png` loops rendered by `sizeLoop` and the `_convert_to_webp`
loop rendered by `webpLoop`, whose instrumented twin `webpLoopTrace`
always computes the same result (first conjunct) — the stall detector
starts from `previous_size = inf, streak = 0`, increments the streak on
a sub-5KB reduction and resets it otherwise, and raises the stall
failure exactly at the third consecutive small observation, only after
at least four observed sizes, reporting the most recently observed size
(not necessarily the best one): the observed sizes decompose as
`pre ++ b :: suf` with `suf` the three small-reduction observations
measured from the base `b`, and the reported size is the last of
them. -/
theorem c2_stall_mechanics (enc encW : ℕ → ℕ) (stop pad stepq : ℕ) (pA : Bool)
    (targetKB : Option ℕ) (sizeRange : Option (ℕ × ℕ))
    (fuel fuelW q0 q0w r rW : ℕ) :
    ((webpLoopTrace encW targetKB sizeRange fuelW ⟨q0w, 0, none⟩).2
        = webpLoop encW targetKB sizeRange fuelW ⟨q0w, 0, none⟩) ∧
    ((sizeLoop enc stop pad stepq pA fuel ⟨q0, 0, none⟩).2 = .stallFailure r →
      ∃ pre b suf,
        (sizeLoop enc stop pad stepq pA fuel ⟨q0, 0, none⟩).1.map Prod.snd
          = pre ++ b :: suf ∧
        suf.length = 3 ∧ chainSmall (some b) suf = true ∧
        suf.getLast? = some r ∧
        4 ≤ (sizeLoop enc stop pad stepq pA fuel ⟨q0, 0, none⟩).1.length) ∧
    ((webpLoopTrace encW targetKB sizeRange fuelW ⟨q0w, 0, none⟩).2
        = .stallFailure rW →
      ∃ pre b suf,
        (webpLoopTrace encW targetKB sizeRange fuelW ⟨q0w, 0, none⟩).1.map Prod.snd
          = pre ++ b :: suf ∧
        suf.length = 3 ∧ chainSmall (some b) suf = true ∧
        suf.getLast? = some rW ∧
        4 ≤ (webpLoopTrace encW targetKB sizeRange fuelW ⟨q0w, 0, none⟩).1.length) :=
  ⟨webpLoopTrace_result encW targetKB sizeRange fuelW ⟨q0w, 0, none⟩,
    fun h => sizeLoop_stall_decomp enc stop pad stepq pA fuel q0 r h,
    fun h => webpLoopTrace_stall_decomp encW targetKB sizeRange fuelW q0w rW h⟩

theorem c2_witness :
    ((webpLoopTrace (fun _ => 1024000) (some 10) none 10 ⟨100, 0, none⟩).2
        = webpLoop (fun _ => 1024000) (some 10) none 10 ⟨100, 0, none⟩) ∧
    (∃ pre b suf,
      (sizeLoop encUptick 10 10 10 true 12 ⟨80, 0, none⟩).1.map Prod.snd
        = pre ++ b :: suf ∧
      suf.length = 3 ∧ chainSmall (some b) suf = true ∧
      suf.getLast? = some 826368 ∧
      4 ≤ (sizeLoop encUptick 10 10 10 true 12 ⟨80, 0, none⟩).1.length) ∧
    (∃ pre b suf,
      (webpLoopTrace (fun _ => 1024000) (some 10) none 10 ⟨100, 0, none⟩).1.map Prod.snd
        = pre ++ b :: suf ∧
      suf.length = 3 ∧ chainSmall (some b) suf = true ∧
      suf.getLast? = some 1024000 ∧
      4 ≤ (webpLoopTrace (fun _ => 1024000) (some 10) none 10 ⟨100, 0, none⟩).1.length) :=
  ⟨(c2_stall_mechanics encUptick (fun _ => 1024000) 10 10 10 true (some 10) none
      12 10 80 100 826368 1024000).1,
    (c2_stall_mechanics encUptick (fun _ => 1024000) 10 10 10 true (some 10) none
      12 10 80 100 826368 1024000).2.1 (by decide),
    (c2_stall_mechanics encUptick (fun _ => 1024000) 10 10 10 true (some 10) none
      12 10 80 100 826368 1024000).2.2 (by decide)⟩

/-- Embeds the WebP/PNG trial-size ratio of `_compress_png`
(ImageCompressor.py line 416): `webp_size / orig_size` when the PNG
trial size is positive, an empirical fallback of 0.7 otherwise.  The
two trial sizes come from one-shot encodes of the source into PNG and
into WebP.  Exact rational arithmetic replaces the Python float
division; every quantity involved is nonnegative. -/
def ratioEstimate (origSize webpSize : ℕ) : ℚ :=
  if 0 < origSize then (webpSize : ℚ) / (origSize : ℚ) else 7 / 10

/-- The fixed 10 percent safety margin of `_compress_png` line 418. -/
def safety_factor : ℚ := 11 / 10

/-- Embeds `int(target_size / ratio * safety_factor)` of `_compress_png`
line 420; all quantities are nonnegative, so the Python `int()`
truncation is the floor. -/
def adjustedTargetKB (targetKB : ℕ) (r : ℚ) : ℤ :=
  ⌊(targetKB : ℚ) / r * safety_factor⌋

/-- Embeds the rescaled range of `_compress_png` lines 421-424: both
bounds are rescaled independently by the same formula. -/
def adjustedRangeKB (mnKB mxKB : ℕ) (r : ℚ) : ℤ × ℤ :=
  (⌊(mnKB : ℚ) / r * safety_factor⌋, ⌊(mxKB : ℚ) / r * safety_factor⌋)

/-- C7: the ratio estimate is `secondary_trial_size /
primary_trial_size` (0.7 for trials of 1000 and 700 bytes), defaults to
0.7 when the primary trial size is 0, and a 300 KB target rescales by
`300 / 0.7 * 1.1` to 471 KB; both bounds of a range are rescaled
independently by that same formula. -/
theorem c7_ratio_rescale :
    ratioEstimate 1000 700 = 7 / 10 ∧
    (∀ s, ratioEstimate 0 s = 7 / 10) ∧
    (∀ p s, 0 < p → ratioEstimate p s = (s : ℚ) / (p : ℚ)) ∧
    adjustedTargetKB 300 (7 / 10) = 471 ∧
    (∀ mn mx r, adjustedRangeKB mn mx r = (adjustedTargetKB mn r, adjustedTargetKB mx r)) := by
  refine ⟨?_, fun s => ?_, fun p s hp => ?_, ?_, fun mn mx r => rfl⟩
  · rw [ratioEstimate, if_pos (by norm_num)]
    norm_num
  · rw [ratioEstimate, if_neg (by norm_num)]
  · rw [ratioEstimate, if_pos hp]
  · rw [adjustedTargetKB, safety_factor]
    norm_num [Int.floor_eq_iff]

theorem c7_witness : ratioEstimate 5 3 = (3 : ℚ) / (5 : ℚ) :=
  (c7_ratio_rescale).2.2.1 5 3 (by norm_num)

/-- Outcome of the pngquant lookup: it either succeeds through
`shutil.which` or raises `NameError` at the `sys` reference (see
`find_pngquant_cmd`).  There is no outcome that returns `None`. -/
inductive PngquantLookup where
  | found (cmd : String)
  | nameError
  deriving DecidableEq

/-- Embeds `find_pngquant_cmd` (ImageCompressor.py lines 108-128),
taking the result of `shutil.which("pngquant")` as input — the only
live external fact the function consults.  The module imports os,
shutil, subprocess, tempfile, time, uuid, warnings, BytesIO, Path,
click, mozjpeg_lossless_optimization and PIL, but never sys; on the
branch where `shutil.which` returns `None`, line 120 evaluates
`hasattr(sys, "_MEIPASS")`, an unresolved global name, so the function
raises `NameError` there.  The bundled-candidate filesystem probing of
lines 120-128 and the final `return None` are unreachable dead code:
the function either returns the PATH lookup result or raises. -/
def find_pngquant_cmd (whichResult : Option String) : PngquantLookup :=
  match whichResult with
  | some cmd => .found cmd
  | none => .nameError

/-- Quality argument of `_compress_png`: a plain integer, an integer
band, or absent, mirroring the `isinstance` dispatch on the Python
`quality` parameter. -/
inductive PngQuality where
  | none
  | int (n : ℕ)
  | band (mn mx : ℕ)
  deriving DecidableEq

/-- Failure modes of `_compress_png`: the `NameError` escaping
`find_pngquant_cmd` when the PATH lookup fails (the `FileNotFoundError`
naming pngquant at lines 398-400 is unreachable, since
`find_pngquant_cmd` can never return `None`), the `ValueError` for a
reversed range, the `ValueError` of the stall detector, and the fuel
artifact of the uncapped loops. -/
inductive PngError where
  | sysNameError
  | badRange (mnKB mxKB : ℕ)
  | stall (reported : ℕ)
  | fuelExhausted
  deriving DecidableEq

/-- Embeds `_compress_png` (ImageCompressor.py lines 373-519) for calls
without WebP conversion.  The pngquant invocation at a given integer
quality is abstracted as `enc (PngQuality.int q)`, and the single
unconstrained invocation (which may pass a band or no quality at all)
as `enc q`.  Control flow follows the source: the pngquant lookup comes
first and a failed lookup raises at once, before any encode; then the
range loop, the exact-target loop, or the single encode runs.  The
`--skip-if-larger` no-output warning path is not modelled: `enc` is
total, standing for invocations that produce a file. -/
def compressPng (whichResult : Option String) (enc : PngQuality → ℕ) (q : PngQuality)
    (targetKB : Option ℕ) (sizeRange : Option (ℕ × ℕ)) (fuel : ℕ) :
    Except PngError ℕ :=
  match find_pngquant_cmd whichResult with
  | .nameError => .error .sysNameError
  | .found _ =>
    match sizeRange with
    | some (mn, mx) =>
      if mx < mn then .error (.badRange mn mx)
      else
        match (rangeSearch (fun n => enc (.int n))
            (match q with | .int n => some n | _ => none) mn mx fuel).2 with
        | .success s => .ok s
        | .stallFailure r => .error (.stall r)
        | .fuelOut _ => .error .fuelExhausted
    | none =>
      match targetKB with
      | some t =>
        match (targetSearch (fun n => enc (.int n)) t fuel).2 with
        | .success s => .ok s
        | .stallFailure r => .error (.stall r)
        | .fuelOut _ => .error .fuelExhausted
      | none => .ok (enc q)

/-- C9: evaluation at the failing input and its consequences.  When
`shutil.which` cannot locate pngquant, `find_pngquant_cmd` raises
`NameError` at its `sys` reference (the module never imports sys), so
`_compress_png` aborts immediately — before any encode, identically for
every encoder, quality, constraint and fuel, and without a second
lookup — but with that `NameError`, not with the `FileNotFoundError`
naming pngquant: that raise at lines 398-400 is unreachable, because
`find_pngquant_cmd` can never return `None`. -/
theorem c9_lookup_name_error (enc encB : PngQuality → ℕ) (q qB : PngQuality)
    (t tB : Option ℕ) (r rB : Option (ℕ × ℕ)) (fuel fuelB : ℕ) :
    find_pngquant_cmd none = .nameError ∧
    compressPng none enc q t r fuel = .error .sysNameError ∧
    compressPng none enc q t r fuel = compressPng none encB qB tB rB fuelB :=
  ⟨rfl, rfl, rfl⟩

/-- Outcome of the size-argument validation shared by
`ImageCompressor.compress_image` (lines 225-241) and
`ImageCompressor.compress_image_from_bytes` (lines 681-697).
`invalid` is the `ValueError`; `proceed` records the effective
`target_size` and `size_range` the rest of the call runs with, and
whether the both-supplied warning was emitted. -/
inductive ValidationOutcome where
  | invalid
  | proceed (targetKB : Option ℤ) (sizeRange : Option (ℤ × ℤ)) (warned : Bool)
  deriving DecidableEq

/-- Embeds the validation block: a supplied `target_size` is checked
first (`target_size <= 0` raises), and if a `size_range` was also
supplied it is discarded with a warning, skipping the range checks
entirely; otherwise a supplied `size_range` raises on a non-positive
bound or on `min_size >= max_size`.  This runs before the existence
check and the format dispatch, hence before any encoding work. -/
def validateSizeArgs (targetKB : Option ℤ) (sizeRange : Option (ℤ × ℤ)) :
    ValidationOutcome :=
  match targetKB with
  | some t =>
    if t ≤ 0 then .invalid
    else
      match sizeRange with
      | some _ => .proceed (some t) none true
      | none => .proceed (some t) none false
  | none =>
    match sizeRange with
    | some (mn, mx) =>
      if mn ≤ 0 ∨ mx ≤ 0 then .invalid
      else if mn ≥ mx then .invalid
      else .proceed none (some (mn, mx)) false
    | none => .proceed none none false

/-- C10: a non-positive `target_size` always raises; an effective
`size_range` with a non-positive bound or with `min >= max` raises; and
when a positive `target_size` and a `size_range` are both supplied, the
range is discarded with a warning and the call proceeds exactly as if
only `target_size` had been given.  The validation happens before any
encoding work (it precedes the existence check and format dispatch in
both entry points). -/
theorem c10_validation (t mn mx : ℤ) :
    (∀ r : Option (ℤ × ℤ), t ≤ 0 → validateSizeArgs (some t) r = .invalid) ∧
    ((mn ≤ 0 ∨ mx ≤ 0 ∨ mx ≤ mn) → validateSizeArgs none (some (mn, mx)) = .invalid) ∧
    (0 < t →
      validateSizeArgs (some t) (some (mn, mx)) = .proceed (some t) none true ∧
      validateSizeArgs (some t) none = .proceed (some t) none false) := by
  refine ⟨fun r ht => ?_, fun hbad => ?_, fun ht => ⟨?_, ?_⟩⟩
  · simp only [validateSizeArgs.eq_def]
    rw [if_pos ht]
  · simp only [validateSizeArgs.eq_def]
    rcases hbad with h | h | h
    · rw [if_pos (Or.inl h)]
    · rw [if_pos (Or.inr h)]
    · by_cases hnp : mn ≤ 0 ∨ mx ≤ 0
      · rw [if_pos hnp]
      · rw [if_neg hnp, if_pos (by omega)]
  · simp only [validateSizeArgs.eq_def]
    rw [if_neg (by omega : ¬ t ≤ 0)]
  · simp only [validateSizeArgs.eq_def]
    rw [if_neg (by omega : ¬ t ≤ 0)]

theorem c10_witness :
    (∀ r : Option (ℤ × ℤ), (5 : ℤ) ≤ 0 → validateSizeArgs (some 5) r = .invalid) ∧
    (((-1 : ℤ) ≤ 0 ∨ (3 : ℤ) ≤ 0 ∨ (3 : ℤ) ≤ -1) →
      validateSizeArgs none (some (-1, 3)) = .invalid) ∧
    ((0 : ℤ) < 5 →
      validateSizeArgs (some 5) (some (-1, 3)) = .proceed (some 5) none true ∧
      validateSizeArgs (some 5) none = .proceed (some 5) none false) :=
  c10_validation 5 (-1) 3
